import Mathlib

/-!
Verification of the navigation/listing/progress engine of `app.py`
(a media browser over a public cloud share).

Python strings are modelled as `List Char` (code points); machine text
operations (`strip`, `rstrip`, `lower`, `endswith`, lexicographic string
comparison) are modelled character by character on those lists.  The ASCII
fragment of Python's Unicode behaviour is used throughout (file names and
paths in this application are ASCII).  JSON (de)serialisation by the Python
standard library is modelled at the level of parsed values: a file either
holds a well-formed record or is corrupt/missing.
-/

/-- Characters of a string literal (convenience for writing `List Char` values). -/
def strL (s : String) : List Char := s.data

/-- Drop matching characters from the left end: Python `lstrip`. -/
def ldrop (p : Char → Bool) (xs : List Char) : List Char := xs.dropWhile p

/-- Drop matching characters from the right end: Python `rstrip`. -/
def rdrop (p : Char → Bool) (xs : List Char) : List Char := (xs.reverse.dropWhile p).reverse

/-- Drop matching characters from both ends: Python `strip`. -/
def stripBoth (p : Char → Bool) (xs : List Char) : List Char := rdrop p (ldrop p xs)

/-- The character set of `strip("/")` / `rstrip("/")` in `app.py`. -/
def isSlash (c : Char) : Bool := c == '/'

/-- Python `s.strip()` (whitespace strip, ASCII model). -/
def pstrip (xs : List Char) : List Char := stripBoth Char.isWhitespace xs

/-- ASCII case folding, modelling `str.lower` and `re.IGNORECASE`. -/
def lowerC (c : Char) : Char := if 'A' ≤ c ∧ c ≤ 'Z' then Char.ofNat (c.toNat + 32) else c

/-- Python `s.lower()` (ASCII model). -/
def lowerS (xs : List Char) : List Char := xs.map lowerC

/-- Numeric value of an ASCII digit. -/
def digitVal (c : Char) : Nat := c.toNat - '0'.toNat

/-- The character class `[_ ]` of the date regular expression. -/
def sepC (c : Char) : Bool := c == '_' || c == ' '

/-- The fixed-width (28 characters) tail pattern
`Modern[_ ]Sabahlar[_ ](dd)_(dd)_(dd).mp3` of `date_re` (src/app.py:106),
applied to a candidate of exactly 28 characters; letters are compared case
insensitively and `\d` is modelled as an ASCII digit.  Returns the decoded
`(year, month, day)` as in `parse_date_key` (src/app.py:108-114), with the
two-digit year decoded to 2000+yy when yy < 70 and 1900+yy otherwise. -/
def matchDate28 : List Char → Option (Nat × Nat × Nat)
  | [c0, c1, c2, c3, c4, c5, s0, c6, c7, c8, c9, c10, c11, c12, c13, s1,
     d0, d1, u0, m0, m1, u1, y0, y1, dt, e0, e1, e2] =>
    if lowerS [c0, c1, c2, c3, c4, c5] = strL "modern" ∧ sepC s0
        ∧ lowerS [c6, c7, c8, c9, c10, c11, c12, c13] = strL "sabahlar" ∧ sepC s1
        ∧ d0.isDigit ∧ d1.isDigit ∧ u0 = '_'
        ∧ m0.isDigit ∧ m1.isDigit ∧ u1 = '_'
        ∧ y0.isDigit ∧ y1.isDigit
        ∧ dt = '.' ∧ lowerC e0 = 'm' ∧ lowerC e1 = 'p' ∧ e2 = '3' then
      let d := 10 * digitVal d0 + digitVal d1
      let mo := 10 * digitVal m0 + digitVal m1
      let yy := 10 * digitVal y0 + digitVal y1
      some (if yy < 70 then 2000 + yy else 1900 + yy, mo, d)
    else none
  | _ => none

/-- `parse_date_key` (src/app.py:108-114): `date_re.search(name.strip())` with the
pattern anchored at the end of the string; since the pattern has fixed width 28,
a match exists exactly when the last 28 characters of the stripped name match. -/
def parse_date_key (name : List Char) : Option (Nat × Nat × Nat) :=
  let s := pstrip name
  matchDate28 (s.drop (s.length - 28))

/-- A directory entry (the fields of the listing JSON objects used by the engine);
a missing or null field is modelled by the empty string. -/
structure Item where
  type : List Char
  name : List Char
  weblink : List Char
deriving DecidableEq

/-- The Python sort key produced by `file_sort_key` (src/app.py:116-121):
either `(0, (year, month, day), name.lower())` or `(1, name.lower())`. -/
inductive FKey where
  | dated : Nat → Nat → Nat → List Char → FKey
  | plain : List Char → FKey
deriving DecidableEq

/-- Python `≤` on strings: lexicographic comparison by code point. -/
def strLe : List Char → List Char → Bool
  | [], _ => true
  | _ :: _, [] => false
  | a :: as, b :: bs =>
    if a.toNat < b.toNat then true
    else if b.toNat < a.toNat then false
    else strLe as bs

/-- One step of Python's lexicographic tuple comparison on numbers. -/
def lexNat (x y : Nat) (rest : Bool) : Bool :=
  if x < y then true else if y < x then false else rest

/-- Python `≤` on the sort-key tuples (lexicographic tuple comparison,
with the tier number compared first). -/
def keyLe : FKey → FKey → Bool
  | .dated y1 m1 d1 n1, .dated y2 m2 d2 n2 =>
    lexNat y1 y2 (lexNat m1 m2 (lexNat d1 d2 (strLe n1 n2)))
  | .dated _ _ _ _, .plain _ => true
  | .plain _, .dated _ _ _ _ => false
  | .plain n1, .plain n2 => strLe n1 n2

/-- `file_sort_key` (src/app.py:116-121). -/
def file_sort_key (it : Item) : FKey :=
  let name := pstrip it.name
  match parse_date_key name with
  | none => .plain (lowerS name)
  | some (y, mo, d) => .dated y mo d (lowerS name)

/-- The sort order on file entries induced by `file_sort_key`. -/
def fileLe (a b : Item) : Prop := keyLe (file_sort_key a) (file_sort_key b) = true

instance : DecidableRel fileLe := fun _ _ => instDecidableEqBool _ _

/-- `folder_sort_key` (src/app.py:123-124). -/
def folder_sort_key (it : Item) : List Char := lowerS it.name

/-- The sort order on folder entries induced by `folder_sort_key`. -/
def folderLe (a b : Item) : Prop := strLe (folder_sort_key a) (folder_sort_key b) = true

instance : DecidableRel folderLe := fun _ _ => instDecidableEqBool _ _

/-- `sorted(files, key=file_sort_key)`: Python's sort is a stable sort by the
key order, modelled by stable insertion sort. -/
def sortFiles (l : List Item) : List Item := l.insertionSort fileLe

/-- `sorted(folders, key=folder_sort_key)`. -/
def sortFolders (l : List Item) : List Item := l.insertionSort folderLe

/-- Chronological (lexicographic) order on decoded `(year, month, day)` triples. -/
def dateLe (a b : Nat × Nat × Nat) : Prop :=
  a.1 < b.1 ∨ (a.1 = b.1 ∧ (a.2.1 < b.2.1 ∨ (a.2.1 = b.2.1 ∧ a.2.2 ≤ b.2.2)))

/-- The ordering demanded by the specification for adjacent files in the sorted
list: date-matching files never follow non-matching ones, matching files are
chronologically ascending, non-matching files are ordered by case-insensitive
(stripped) name. -/
def specFileOrder (a b : Item) : Prop :=
  match parse_date_key a.name, parse_date_key b.name with
  | some da, some db => dateLe da db
  | some _, none => True
  | none, some _ => False
  | none, none => strLe (lowerS (pstrip a.name)) (lowerS (pstrip b.name)) = true

theorem dropWhile_head_not (p : Char → Bool) :
    ∀ (l : List Char) (c : Char) (t : List Char), l.dropWhile p = c :: t → p c = false := by
  intro l
  induction l with
  | nil => intro c t h; simp at h
  | cons a as ih =>
    intro c t h
    rw [List.dropWhile_cons] at h
    by_cases hp : p a
    · rw [if_pos hp] at h; exact ih c t h
    · rw [if_neg hp] at h
      cases h
      simpa using hp

theorem dropWhile_idem (p : Char → Bool) (l : List Char) :
    (l.dropWhile p).dropWhile p = l.dropWhile p := by
  cases h : l.dropWhile p with
  | nil => simp
  | cons c t =>
    have hc := dropWhile_head_not p l c t h
    rw [List.dropWhile_cons, if_neg (by simp [hc])]

theorem exists_append_dropWhile (p : Char → Bool) (l : List Char) :
    ∃ t, l = t ++ l.dropWhile p := by
  induction l with
  | nil => exact ⟨[], rfl⟩
  | cons a as ih =>
    rw [List.dropWhile_cons]
    by_cases hp : p a
    · rcases ih with ⟨t, ht⟩
      exact ⟨a :: t, by rw [if_pos hp]; simpa using ht⟩
    · exact ⟨[], by rw [if_neg hp]; rfl⟩

theorem ldrop_idem (p : Char → Bool) (l : List Char) :
    ldrop p (ldrop p l) = ldrop p l := dropWhile_idem p l

theorem rdrop_idem (p : Char → Bool) (l : List Char) :
    rdrop p (rdrop p l) = rdrop p l := by
  unfold rdrop
  rw [List.reverse_reverse, dropWhile_idem]

theorem ldrop_stripBoth (p : Char → Bool) (l : List Char) :
    ldrop p (stripBoth p l) = stripBoth p l := by
  unfold stripBoth
  set zs := ldrop p l with hzs
  rcases exists_append_dropWhile p zs.reverse with ⟨t, ht⟩
  have hz : zs = rdrop p zs ++ t.reverse := by
    unfold rdrop
    conv_lhs => rw [← List.reverse_reverse zs, ht]
    rw [List.reverse_append]
  cases hr : rdrop p zs with
  | nil => simp [ldrop, hr]
  | cons c u =>
    have hcu : zs = c :: (u ++ t.reverse) := by rw [hz, hr]; simp
    have hcd : zs.dropWhile p = zs := by
      rw [hzs]; exact dropWhile_idem p l
    have hpc : p c = false := by
      have : zs.dropWhile p = c :: (u ++ t.reverse) := by rw [hcd, hcu]
      exact dropWhile_head_not p zs c (u ++ t.reverse) this
    rw [← hr]
    show (rdrop p zs).dropWhile p = rdrop p zs
    rw [hr, List.dropWhile_cons, if_neg (by simp [hpc])]

theorem stripBoth_idem (p : Char → Bool) (l : List Char) :
    stripBoth p (stripBoth p l) = stripBoth p l := by
  have h1 : stripBoth p (stripBoth p l) = rdrop p (stripBoth p l) := by
    unfold stripBoth
    rw [show ldrop p (rdrop p (ldrop p l)) = rdrop p (ldrop p l) from ldrop_stripBoth p l]
  rw [h1]
  unfold stripBoth
  exact rdrop_idem p (ldrop p l)

theorem pstrip_idem (l : List Char) : pstrip (pstrip l) = pstrip l :=
  stripBoth_idem _ l

theorem parse_date_key_pstrip (l : List Char) :
    parse_date_key (pstrip l) = parse_date_key l := by
  unfold parse_date_key
  rw [pstrip_idem]

theorem strLe_total : ∀ a b : List Char, strLe a b = true ∨ strLe b a = true := by
  intro a
  induction a with
  | nil => intro b; left; rfl
  | cons x xs ih =>
    intro b
    cases b with
    | nil => right; rfl
    | cons y ys =>
      unfold strLe
      rcases Nat.lt_trichotomy x.toNat y.toNat with h | h | h
      · left; rw [if_pos h]
      · rcases ih ys with h2 | h2
        · left
          rw [if_neg (by omega), if_neg (by omega)]
          exact h2
        · right
          rw [if_neg (by omega), if_neg (by omega)]
          exact h2
      · right; rw [if_pos h]

theorem strLe_trans :
    ∀ a b c : List Char, strLe a b = true → strLe b c = true → strLe a c = true := by
  intro a
  induction a with
  | nil => intro b c _ _; rfl
  | cons x xs ih =>
    intro b c hab hbc
    cases b with
    | nil => simp [strLe] at hab
    | cons y ys =>
      cases c with
      | nil => simp [strLe] at hbc
      | cons z zs =>
        unfold strLe at hab hbc ⊢
        by_cases h1 : x.toNat < y.toNat <;> by_cases h2 : y.toNat < z.toNat
        · rw [if_pos (by omega)]
        · rw [if_neg h2] at hbc
          by_cases h3 : z.toNat < y.toNat
          · rw [if_pos h3] at hbc; exact absurd hbc (by simp)
          · rw [if_pos (by omega)]
        · rw [if_neg h1] at hab
          by_cases h3 : y.toNat < x.toNat
          · rw [if_pos h3] at hab; exact absurd hab (by simp)
          · rw [if_pos (by omega)]
        · rw [if_neg h1] at hab
          rw [if_neg h2] at hbc
          by_cases h3 : y.toNat < x.toNat
          · rw [if_pos h3] at hab; exact absurd hab (by simp)
          · by_cases h4 : z.toNat < y.toNat
            · rw [if_pos h4] at hbc; exact absurd hbc (by simp)
            · rw [if_neg h3] at hab
              rw [if_neg h4] at hbc
              rw [if_neg (by omega), if_neg (by omega)]
              exact ih ys zs hab hbc

theorem lexNat_total (x y : Nat) (r s : Bool) (h : r = true ∨ s = true) :
    lexNat x y r = true ∨ lexNat y x s = true := by
  unfold lexNat
  rcases Nat.lt_trichotomy x y with hl | hl | hl
  · left; rw [if_pos hl]
  · rcases h with h | h
    · left; rw [if_neg (by omega), if_neg (by omega)]; exact h
    · right; rw [if_neg (by omega), if_neg (by omega)]; exact h
  · right; rw [if_pos hl]

theorem lexNat_trans (x y z : Nat) (r s t : Bool)
    (h : r = true → s = true → t = true)
    (h1 : lexNat x y r = true) (h2 : lexNat y z s = true) : lexNat x z t = true := by
  unfold lexNat at h1 h2 ⊢
  by_cases a1 : x < y <;> by_cases a2 : y < z
  · rw [if_pos (by omega)]
  · rw [if_neg a2] at h2
    by_cases a3 : z < y
    · rw [if_pos a3] at h2; exact absurd h2 (by simp)
    · rw [if_pos (by omega)]
  · rw [if_neg a1] at h1
    by_cases a3 : y < x
    · rw [if_pos a3] at h1; exact absurd h1 (by simp)
    · rw [if_pos (by omega)]
  · rw [if_neg a1] at h1
    rw [if_neg a2] at h2
    by_cases a3 : y < x
    · rw [if_pos a3] at h1; exact absurd h1 (by simp)
    · by_cases a4 : z < y
      · rw [if_pos a4] at h2; exact absurd h2 (by simp)
      · rw [if_neg a3] at h1
        rw [if_neg a4] at h2
        rw [if_neg (by omega), if_neg (by omega)]
        exact h h1 h2

theorem keyLe_total : ∀ a b : FKey, keyLe a b = true ∨ keyLe b a = true := by
  intro a b
  cases a with
  | dated y1 m1 d1 n1 =>
    cases b with
    | dated y2 m2 d2 n2 =>
      unfold keyLe
      exact lexNat_total _ _ _ _
        (lexNat_total _ _ _ _ (lexNat_total _ _ _ _ (strLe_total n1 n2)))
    | plain n2 => left; rfl
  | plain n1 =>
    cases b with
    | dated y2 m2 d2 n2 => right; rfl
    | plain n2 => exact strLe_total n1 n2

theorem keyLe_trans :
    ∀ a b c : FKey, keyLe a b = true → keyLe b c = true → keyLe a c = true := by
  intro a b c hab hbc
  cases a with
  | dated y1 m1 d1 n1 =>
    cases b with
    | dated y2 m2 d2 n2 =>
      cases c with
      | dated y3 m3 d3 n3 =>
        unfold keyLe at hab hbc ⊢
        refine lexNat_trans _ _ _ _ _ _ (fun h1 h2 => ?_) hab hbc
        refine lexNat_trans _ _ _ _ _ _ (fun g1 g2 => ?_) h1 h2
        refine lexNat_trans _ _ _ _ _ _ (fun k1 k2 => ?_) g1 g2
        exact strLe_trans n1 n2 n3 k1 k2
      | plain n3 => rfl
    | plain n2 =>
      cases c with
      | dated y3 m3 d3 n3 => exact absurd hbc (by simp [keyLe])
      | plain n3 => rfl
  | plain n1 =>
    cases b with
    | dated y2 m2 d2 n2 => exact absurd hab (by simp [keyLe])
    | plain n2 =>
      cases c with
      | dated y3 m3 d3 n3 => exact absurd hbc (by simp [keyLe])
      | plain n3 => exact strLe_trans n1 n2 n3 hab hbc

theorem fileLe_total : ∀ a b : Item, fileLe a b ∨ fileLe b a := fun a b =>
  keyLe_total (file_sort_key a) (file_sort_key b)

theorem fileLe_trans : ∀ a b c : Item, fileLe a b → fileLe b c → fileLe a c := fun _ _ _ =>
  keyLe_trans _ _ _

theorem folderLe_total : ∀ a b : Item, folderLe a b ∨ folderLe b a := fun a b =>
  strLe_total (folder_sort_key a) (folder_sort_key b)

theorem folderLe_trans : ∀ a b c : Item, folderLe a b → folderLe b c → folderLe a c :=
  fun _ _ _ => strLe_trans _ _ _

theorem lexNat_le (x y : Nat) (r : Bool) (h : lexNat x y r = true) :
    x < y ∨ (x = y ∧ r = true) := by
  unfold lexNat at h
  by_cases a1 : x < y
  · left; exact a1
  · rw [if_neg a1] at h
    by_cases a2 : y < x
    · rw [if_pos a2] at h; exact absurd h (by simp)
    · rw [if_neg a2] at h; right; exact ⟨by omega, h⟩

theorem fileLe_specFileOrder (a b : Item) (h : fileLe a b) : specFileOrder a b := by
  unfold fileLe file_sort_key at h
  unfold specFileOrder
  rw [← parse_date_key_pstrip a.name, ← parse_date_key_pstrip b.name]
  cases ha : parse_date_key (pstrip a.name) with
  | none =>
    cases hb : parse_date_key (pstrip b.name) with
    | none =>
      simp only [ha, hb] at h
      exact h
    | some db =>
      rcases db with ⟨y2, m2, d2⟩
      simp only [ha, hb] at h
      exact absurd h (by simp [keyLe])
  | some da =>
    rcases da with ⟨y1, m1, d1⟩
    cases hb : parse_date_key (pstrip b.name) with
    | none => trivial
    | some db =>
      rcases db with ⟨y2, m2, d2⟩
      simp only [ha, hb] at h
      unfold keyLe at h
      unfold dateLe
      rcases lexNat_le _ _ _ h with h1 | ⟨h1, h2⟩
      · left; exact h1
      · rcases lexNat_le _ _ _ h2 with h3 | ⟨h3, h4⟩
        · right; exact ⟨h1, Or.inl h3⟩
        · rcases lexNat_le _ _ _ h4 with h5 | ⟨h5, _⟩
          · right; exact ⟨h1, Or.inr ⟨h3, by show d1 ≤ d2; omega⟩⟩
          · right; exact ⟨h1, Or.inr ⟨h3, by show d1 ≤ d2; omega⟩⟩

/-- Python `w.endswith(suf)`. -/
def endswith (xs suf : List Char) : Bool := suf.isSuffixOf xs

/-- `normalize_child_weblink` (src/app.py:86-93).  Note that the code never
reads the `parent` argument: the child path is derived from the entry's own
`weblink` field and `name`. -/
def normalize_child_weblink (parent : List Char) (it : Item) : List Char :=
  let w := it.weblink
  let name := it.name
  if w = [] then []
  else
    let w2 := if name ≠ [] ∧ ¬ endswith w ('/' :: name) then rdrop isSlash w ++ '/' :: name else w
    stripBoth isSlash w2

/-- Modelled from the spec (data model): "Derived child path = parent path +
"/" + name, normalized (no duplicate trailing name, no leading/trailing
slashes)".  Stated only for comparison with `normalize_child_weblink`. -/
def spec_child_path (parent name : List Char) : List Char :=
  if endswith parent ('/' :: name) then stripBoth isSlash parent
  else stripBoth isSlash (parent ++ '/' :: name)

/-- The per-directory part of the Streamlit session state used by the listing
logic (src/app.py:163-165, 230-251): current load offset and the accumulated
sorted folder and file lists. -/
structure SessionS where
  offset : Nat
  loaded_folders : List Item
  loaded_files : List Item
deriving DecidableEq

/-- The reset state installed on navigation changes (src/app.py:162-165). -/
def resetSession : SessionS := ⟨0, [], []⟩

/-- `load_first_page_if_needed` (src/app.py:230-240); `remote o` is the entry
list that `list_dir` returns for the current directory at offset `o` (the page
size is a constant, so it is not a parameter of the oracle). -/
def load_first_page_if_needed (remote : Nat → List Item) (s : SessionS) : SessionS :=
  if s.offset > 0 ∨ s.loaded_files ≠ [] ∨ s.loaded_folders ≠ [] then s
  else
    let items := remote 0
    let folders := items.filter fun it => decide (it.type = strL "folder")
    let files := items.filter fun it => decide (it.type = strL "file")
    ⟨items.length, sortFolders folders, sortFiles files⟩

/-- `load_more` (src/app.py:242-251). -/
def load_more (remote : Nat → List Item) (s : SessionS) : SessionS :=
  let items := remote s.offset
  let folders := items.filter fun it => decide (it.type = strL "folder")
  let files := items.filter fun it => decide (it.type = strL "file")
  ⟨s.offset + items.length,
    sortFolders (s.loaded_folders ++ folders),
    sortFiles (s.loaded_files ++ files)⟩

/-- The two page-load operations a rerun can perform on the session. -/
inductive NavOp where
  | first : NavOp
  | more : NavOp

/-- One page-load step, instrumented with the running total of entries fetched
from the remote so far (`load_first_page_if_needed` fetches only when its
guard passes; `load_more` always fetches one page). -/
def navStep (remote : Nat → List Item) : SessionS × Nat → NavOp → SessionS × Nat
  | (s, n), .first =>
    if s.offset > 0 ∨ s.loaded_files ≠ [] ∨ s.loaded_folders ≠ [] then
      (load_first_page_if_needed remote s, n)
    else (load_first_page_if_needed remote s, n + (remote 0).length)
  | (s, n), .more => (load_more remote s, n + (remote s.offset).length)

/-- A sequence of page loads in one directory, starting from the reset state. -/
def navRun (remote : Nat → List Item) (ops : List NavOp) : SessionS × Nat :=
  ops.foldl (navStep remote) (resetSession, 0)

/-- The persisted progress record (src/app.py:130-147): JSON schema
last_folder/last_file/per_folder, with a missing key modelled as `none`
(respectively the empty table). -/
structure Progress where
  last_folder : Option (List Char)
  last_file : Option (List Char)
  per_folder : List (List Char × List Char)
deriving DecidableEq

/-- The record that `read_progress` yields on any failure. -/
def emptyProgress : Progress := ⟨none, none, []⟩

/-- Contents of a file as seen by the JSON layer: either a well-formed record
or text that fails to parse. -/
inductive FileData where
  | valid : Progress → FileData
  | corrupt : FileData
deriving DecidableEq

/-- The file-system state touched by the progress store: the progress file and
the temporary file used by the atomic-replace protocol. -/
structure FS where
  main : Option FileData
  tmp : Option FileData
deriving DecidableEq

/-- The body of `read_progress`'s try block (src/app.py:26-31): open plus
json.load, failing when the file is missing or does not parse. -/
def load_attempt (fs : FS) : Except (List Char) Progress :=
  match fs.main with
  | none => .error (strL "missing file")
  | some .corrupt => .error (strL "malformed json")
  | some (.valid p) => .ok p

/-- `read_progress` (src/app.py:26-31): every failure is absorbed and the
empty record is returned; the caller never sees an exception. -/
def read_progress (fs : FS) : Progress :=
  match load_attempt fs with
  | .ok p => p
  | .error _ => emptyProgress

/-- First phase of `write_progress` (src/app.py:36-39): the serialized record
is written to a fresh temporary file; the main file is untouched. -/
def write_progress_tmp (d : Progress) (fs : FS) : FS := ⟨fs.main, some (.valid d)⟩

/-- `os.replace` (src/app.py:40): the temporary file atomically replaces the
main file. -/
def replace_tmp (fs : FS) : FS := ⟨fs.tmp, none⟩

/-- The finally clause (src/app.py:41-46): best-effort removal of a leftover
temporary file. -/
def cleanup_tmp (fs : FS) : FS := ⟨fs.main, none⟩

/-- `write_progress` (src/app.py:33-46), run to completion. -/
def write_progress (d : Progress) (fs : FS) : FS :=
  cleanup_tmp (replace_tmp (write_progress_tmp d fs))

/-- `write_progress` interrupted by a crash after the temporary file is
written but before `os.replace` runs. -/
def write_progress_crashed (d : Progress) (fs : FS) : FS := write_progress_tmp d fs

/-- Table update with Python dict semantics: replace in place, else append. -/
def setA : List (List Char × List Char) → List Char → List Char → List (List Char × List Char)
  | [], k, v => [(k, v)]
  | (a, b) :: rest, k, v => if a = k then (a, v) :: rest else (a, b) :: setA rest k v

/-- Table lookup with Python dict semantics (`pf.get(key)`). -/
def lookupA : List (List Char × List Char) → List Char → Option (List Char)
  | [], _ => none
  | (a, b) :: rest, k => if a = k then some b else lookupA rest k

/-- The record transformation performed by `update_progress`
(src/app.py:130-137). -/
def update_progress_record (folder filename : List Char) (p : Progress) : Progress :=
  ⟨some folder, some filename, setA p.per_folder folder filename⟩

/-- `update_progress` (src/app.py:130-137): read-modify-write of the store. -/
def update_progress (folder filename : List Char) (fs : FS) : FS :=
  write_progress (update_progress_record folder filename (read_progress fs)) fs

/-- The fallback branch of `pick_last_for_folder` (src/app.py:145-147):
Python's `p.get("last_folder") == folder and p.get("last_file") in names`
is false whenever either key is missing. -/
def pick_last_fallback (p : Progress) (folder : List Char) (names : List (List Char)) :
    Option (List Char) :=
  match p.last_folder, p.last_file with
  | some f2, some n2 => if f2 = folder ∧ n2 ∈ names then some n2 else none
  | _, _ => none

/-- `pick_last_for_folder` (src/app.py:139-147); `cand in names` is false when
the per-folder table has no entry for the folder. -/
def pick_last_for_folder (p : Progress) (folder : List Char) (names : List (List Char)) :
    Option (List Char) :=
  match lookupA p.per_folder folder with
  | some cand =>
    if cand ∈ names then some cand else pick_last_fallback p folder names
  | none => pick_last_fallback p folder names

/-- The session-held token and the tick at which it was stored
(`st.session_state.token` / `token_ts`); both keys are popped together by the
refresh button, but each may independently be absent. -/
structure TokState where
  token : Option String
  token_ts : Option Int
deriving DecidableEq

/-- The `st.cache_data` memo entry behind `get_download_token_cached`:
the cached value and the real time at which it was computed. -/
structure MemoCache where
  val : Option (String × Int)
deriving DecidableEq

/-- `get_download_token_cached` (src/app.py:48-53): the underlying network
fetch, memoized with ttl 60*5 seconds of real time; `issue t` is the token
the remote service would issue at real time `t`, `rnow` the current real
time. -/
def get_download_token_cached (issue : Int → String) (rnow : Int) (c : MemoCache) :
    String × MemoCache :=
  match c.val with
  | some (v, t) => if rnow - t < 60 * 5 then (v, c) else (issue rnow, ⟨some (issue rnow, rnow)⟩)
  | none => (issue rnow, ⟨some (issue rnow, rnow)⟩)

/-- `get_download_token` (src/app.py:55-64).  `now_ts` is the session tick
counter, incremented once per user interaction (src/app.py:149); the held
token is reused unless its tick-age exceeds 60*4. -/
def get_download_token (issue : Int → String) (rnow now_ts : Int) (st : TokState)
    (c : MemoCache) : String × TokState × MemoCache :=
  match st.token, st.token_ts with
  | some tok, some ts =>
    if now_ts - ts > 60 * 4 then
      let r := get_download_token_cached issue rnow c
      (r.1, ⟨some r.1, some now_ts⟩, r.2)
    else (tok, st, c)
  | _, _ =>
    let r := get_download_token_cached issue rnow c
    (r.1, ⟨some r.1, some now_ts⟩, r.2)

/-- The "Refresh token" button (src/app.py:216-220): pops both session keys. -/
def refresh_token_action (_ : TokState) : TokState := ⟨none, none⟩

theorem rdrop_eq_self (p : Char → Bool) (xs : List Char)
    (h : ∀ c, xs.getLast? = some c → p c = false) : rdrop p xs = xs := by
  unfold rdrop
  cases hx : xs.reverse with
  | nil =>
    have hxs : xs = [] := by simpa using congrArg List.reverse hx
    simp [hxs]
  | cons c t =>
    have hc : xs.getLast? = some c := by
      rw [← List.head?_reverse, hx]; rfl
    rw [List.dropWhile_cons, if_neg (by simp [h c hc])]
    rw [← hx, List.reverse_reverse]

theorem rdrop_getLast_not (p : Char → Bool) (xs : List Char) (c : Char)
    (h : (rdrop p xs).getLast? = some c) : p c = false := by
  unfold rdrop at h
  rw [← List.head?_reverse, List.reverse_reverse] at h
  cases hd : List.dropWhile p xs.reverse with
  | nil => rw [hd] at h; exact absurd h (by simp)
  | cons d u =>
    rw [hd] at h
    have : d = c := by simpa using h
    exact this ▸ dropWhile_head_not p xs.reverse d u hd

theorem ldrop_append_of_ne_nil (p : Char → Bool) (xs ys : List Char)
    (h : ldrop p xs ≠ []) : ldrop p (xs ++ ys) = ldrop p xs ++ ys := by
  induction xs with
  | nil => exact absurd rfl h
  | cons a as ih =>
    unfold ldrop at h ih ⊢
    rw [List.cons_append, List.dropWhile_cons, List.dropWhile_cons]
    by_cases hp : p a
    · rw [if_pos hp, if_pos hp]
      rw [List.dropWhile_cons, if_pos hp] at h
      exact ih h
    · rw [if_neg hp, if_neg hp, List.cons_append]

theorem ldrop_append_all (p : Char → Bool) (xs ys : List Char)
    (h : ∀ x ∈ xs, p x = true) : ldrop p (xs ++ ys) = ldrop p ys := by
  induction xs with
  | nil => rfl
  | cons a as ih =>
    unfold ldrop at ih ⊢
    rw [List.cons_append, List.dropWhile_cons, if_pos (h a (by simp))]
    exact ih fun x hx => h x (by simp [hx])

theorem ldrop_ne_nil_of_mem (p : Char → Bool) (xs : List Char) (c : Char)
    (hc : c ∈ xs) (hp : p c = false) : ldrop p xs ≠ [] := by
  intro h
  unfold ldrop at h
  have := List.dropWhile_eq_nil_iff.mp h c hc
  rw [hp] at this
  exact absurd this (by simp)

theorem rdrop_append_sing (p : Char → Bool) (xs : List Char) (c : Char) (hp : p c = true) :
    rdrop p (xs ++ [c]) = rdrop p xs := by
  unfold rdrop
  rw [List.reverse_append]
  simp only [List.reverse_cons, List.reverse_nil, List.nil_append, List.singleton_append]
  rw [List.dropWhile_cons, if_pos hp]

theorem stripBoth_append_sing (p : Char → Bool) (xs : List Char) (c : Char) (hp : p c = true) :
    stripBoth p (xs ++ [c]) = stripBoth p xs := by
  unfold stripBoth
  by_cases h : ldrop p xs = []
  · have hall : ∀ x ∈ xs, p x = true := by
      have h2 : xs.dropWhile p = [] := h
      exact List.dropWhile_eq_nil_iff.mp h2
    rw [ldrop_append_all p xs [c] hall, h]
    have hc : ldrop p [c] = [] := by
      unfold ldrop
      rw [List.dropWhile_cons, if_pos hp]
      rfl
    rw [hc]
  · rw [ldrop_append_of_ne_nil p xs [c] h, rdrop_append_sing p _ c hp]

theorem ldrop_rdrop_ne_nil (p : Char → Bool) (xs : List Char) (h : rdrop p xs ≠ []) :
    ldrop p (rdrop p xs) ≠ [] := by
  have hc : (rdrop p xs).getLast? = some ((rdrop p xs).getLast h) :=
    List.getLast?_eq_getLast _ h
  exact ldrop_ne_nil_of_mem p _ _ (List.getLast_mem h) (rdrop_getLast_not p xs _ hc)

theorem normalize_core (parent : List Char) (it : Item)
    (h1 : it.name ≠ [])
    (h2 : it.name.getLast? ≠ some '/')
    (h3 : rdrop isSlash it.weblink ≠ [])
    (h4 : ¬ ('/' :: it.name) <:+ it.weblink) :
    normalize_child_weblink parent it
      = ldrop isSlash (rdrop isSlash it.weblink) ++ '/' :: it.name := by
  have hw : it.weblink ≠ [] := by
    intro h
    rw [h] at h3
    exact h3 rfl
  have hes : ¬ (endswith it.weblink ('/' :: it.name) = true) := by
    rw [endswith, List.isSuffixOf_iff_suffix]
    exact h4
  unfold normalize_child_weblink
  rw [if_neg hw, if_pos ⟨h1, hes⟩]
  unfold stripBoth
  show rdrop isSlash (ldrop isSlash (rdrop isSlash it.weblink ++ '/' :: it.name))
      = ldrop isSlash (rdrop isSlash it.weblink) ++ '/' :: it.name
  rw [ldrop_append_of_ne_nil _ _ _ (ldrop_rdrop_ne_nil isSlash it.weblink h3)]
  apply rdrop_eq_self
  intro c hc
  rw [List.getLast?_append_of_ne_nil _ (by simp : ('/' :: it.name) ≠ [])] at hc
  rw [show ('/' :: it.name) = ['/'] ++ it.name from rfl,
    List.getLast?_append_of_ne_nil _ h1] at hc
  have : c ≠ '/' := fun he => h2 (he ▸ hc)
  simpa [isSlash] using this

theorem length_sortFolders (l : List Item) : (sortFolders l).length = l.length :=
  (List.perm_insertionSort folderLe l).length_eq

theorem length_sortFiles (l : List Item) : (sortFiles l).length = l.length :=
  (List.perm_insertionSort fileLe l).length_eq

theorem filter_folder_file_length (items : List Item)
    (h : ∀ it ∈ items, it.type = strL "folder" ∨ it.type = strL "file") :
    (items.filter fun it => decide (it.type = strL "folder")).length
      + (items.filter fun it => decide (it.type = strL "file")).length
      = items.length := by
  induction items with
  | nil => rfl
  | cons a rest ih =>
    have ha := h a (by simp)
    have hrest := ih fun it hit => h it (by simp [hit])
    rw [List.filter_cons, List.filter_cons]
    rcases ha with ha | ha
    · have hnf : ¬ (a.type = strL "file") := by rw [ha]; decide
      rw [if_pos (by simp [ha]), if_neg (by simpa using hnf)]
      simp only [List.length_cons]
      omega
    · have hnf : ¬ (a.type = strL "folder") := by rw [ha]; decide
      rw [if_neg (by simpa using hnf), if_pos (by simp [ha])]
      simp only [List.length_cons]
      omega

theorem navRun_aux_offset (remote : Nat → List Item) :
    ∀ (ops : List NavOp) (s : SessionS) (n : Nat), s.offset = n →
      (ops.foldl (navStep remote) (s, n)).1.offset
        = (ops.foldl (navStep remote) (s, n)).2 := by
  intro ops
  induction ops with
  | nil => intro s n h; exact h
  | cons op rest ih =>
    intro s n h
    rw [List.foldl_cons]
    cases op with
    | first =>
      by_cases hg : s.offset > 0 ∨ s.loaded_files ≠ [] ∨ s.loaded_folders ≠ []
      · have hfirst : load_first_page_if_needed remote s = s := by
          unfold load_first_page_if_needed
          rw [if_pos hg]
        have hstep : navStep remote (s, n) NavOp.first = (s, n) := by
          show (if s.offset > 0 ∨ s.loaded_files ≠ [] ∨ s.loaded_folders ≠ []
              then (load_first_page_if_needed remote s, n)
              else (load_first_page_if_needed remote s, n + (remote 0).length)) = (s, n)
          rw [if_pos hg, hfirst]
        rw [hstep]
        exact ih s n h
      · have hstep : navStep remote (s, n) NavOp.first
            = (load_first_page_if_needed remote s, n + (remote 0).length) := by
          show (if s.offset > 0 ∨ s.loaded_files ≠ [] ∨ s.loaded_folders ≠ []
              then (load_first_page_if_needed remote s, n)
              else (load_first_page_if_needed remote s, n + (remote 0).length))
            = (load_first_page_if_needed remote s, n + (remote 0).length)
          rw [if_neg hg]
        have h0 : s.offset = 0 := by
          by_contra hne
          exact hg (Or.inl (by omega))
        rw [hstep]
        apply ih
        unfold load_first_page_if_needed
        rw [if_neg hg]
        show (remote 0).length = n + (remote 0).length
        omega
    | more =>
      have hstep : navStep remote (s, n) NavOp.more
          = (load_more remote s, n + (remote s.offset).length) := rfl
      rw [hstep]
      apply ih
      show s.offset + (remote s.offset).length = n + (remote s.offset).length
      omega

theorem navRun_aux_le (remote : Nat → List Item) (total : Nat)
    (hr : ∀ o : Nat, o ≤ total → o + (remote o).length ≤ total) :
    ∀ (ops : List NavOp) (s : SessionS) (n : Nat), s.offset ≤ total →
      (ops.foldl (navStep remote) (s, n)).1.offset ≤ total := by
  intro ops
  induction ops with
  | nil => intro s n h; exact h
  | cons op rest ih =>
    intro s n h
    rw [List.foldl_cons]
    cases op with
    | first =>
      by_cases hg : s.offset > 0 ∨ s.loaded_files ≠ [] ∨ s.loaded_folders ≠ []
      · have hfirst : load_first_page_if_needed remote s = s := by
          unfold load_first_page_if_needed
          rw [if_pos hg]
        have hstep : navStep remote (s, n) NavOp.first = (s, n) := by
          show (if s.offset > 0 ∨ s.loaded_files ≠ [] ∨ s.loaded_folders ≠ []
              then (load_first_page_if_needed remote s, n)
              else (load_first_page_if_needed remote s, n + (remote 0).length)) = (s, n)
          rw [if_pos hg, hfirst]
        rw [hstep]
        exact ih s n h
      · have hstep : navStep remote (s, n) NavOp.first
            = (load_first_page_if_needed remote s, n + (remote 0).length) := by
          show (if s.offset > 0 ∨ s.loaded_files ≠ [] ∨ s.loaded_folders ≠ []
              then (load_first_page_if_needed remote s, n)
              else (load_first_page_if_needed remote s, n + (remote 0).length))
            = (load_first_page_if_needed remote s, n + (remote 0).length)
          rw [if_neg hg]
        rw [hstep]
        apply ih
        unfold load_first_page_if_needed
        rw [if_neg hg]
        show (remote 0).length ≤ total
        have := hr 0 (by omega)
        omega
    | more =>
      have hstep : navStep remote (s, n) NavOp.more
          = (load_more remote s, n + (remote s.offset).length) := rfl
      rw [hstep]
      apply ih
      show s.offset + (remote s.offset).length ≤ total
      exact hr s.offset h

theorem navRun_aux_lengths (remote : Nat → List Item)
    (hr : ∀ (o : Nat) (it : Item), it ∈ remote o →
      it.type = strL "folder" ∨ it.type = strL "file") :
    ∀ (ops : List NavOp) (s : SessionS) (n : Nat),
      s.loaded_folders.length + s.loaded_files.length = s.offset →
      (ops.foldl (navStep remote) (s, n)).1.loaded_folders.length
          + (ops.foldl (navStep remote) (s, n)).1.loaded_files.length
        = (ops.foldl (navStep remote) (s, n)).1.offset := by
  intro ops
  induction ops with
  | nil => intro s n h; exact h
  | cons op rest ih =>
    intro s n h
    rw [List.foldl_cons]
    cases op with
    | first =>
      by_cases hg : s.offset > 0 ∨ s.loaded_files ≠ [] ∨ s.loaded_folders ≠ []
      · have hfirst : load_first_page_if_needed remote s = s := by
          unfold load_first_page_if_needed
          rw [if_pos hg]
        have hstep : navStep remote (s, n) NavOp.first = (s, n) := by
          show (if s.offset > 0 ∨ s.loaded_files ≠ [] ∨ s.loaded_folders ≠ []
              then (load_first_page_if_needed remote s, n)
              else (load_first_page_if_needed remote s, n + (remote 0).length)) = (s, n)
          rw [if_pos hg, hfirst]
        rw [hstep]
        exact ih s n h
      · have hstep : navStep remote (s, n) NavOp.first
            = (load_first_page_if_needed remote s, n + (remote 0).length) := by
          show (if s.offset > 0 ∨ s.loaded_files ≠ [] ∨ s.loaded_folders ≠ []
              then (load_first_page_if_needed remote s, n)
              else (load_first_page_if_needed remote s, n + (remote 0).length))
            = (load_first_page_if_needed remote s, n + (remote 0).length)
          rw [if_neg hg]
        rw [hstep]
        apply ih
        unfold load_first_page_if_needed
        rw [if_neg hg]
        show (sortFolders _).length + (sortFiles _).length = (remote 0).length
        rw [length_sortFolders, length_sortFiles]
        exact filter_folder_file_length (remote 0) (hr 0)
    | more =>
      have hstep : navStep remote (s, n) NavOp.more
          = (load_more remote s, n + (remote s.offset).length) := rfl
      rw [hstep]
      apply ih
      show (sortFolders _).length + (sortFiles _).length = s.offset + (remote s.offset).length
      rw [length_sortFolders, length_sortFiles, List.length_append, List.length_append]
      have := filter_folder_file_length (remote s.offset) (hr s.offset)
      omega

theorem lookupA_setA_self (pf : List (List Char × List Char)) (k v : List Char) :
    lookupA (setA pf k v) k = some v := by
  induction pf with
  | nil =>
    unfold setA lookupA
    rw [if_pos rfl]
  | cons ab rest ih =>
    rcases ab with ⟨a, b⟩
    unfold setA
    by_cases h : a = k
    · rw [if_pos h]
      unfold lookupA
      rw [if_pos h]
    · rw [if_neg h]
      unfold lookupA
      rw [if_neg h]
      exact ih

theorem lookupA_setA_ne (pf : List (List Char × List Char)) (k v g : List Char)
    (h : g ≠ k) : lookupA (setA pf k v) g = lookupA pf g := by
  induction pf with
  | nil =>
    unfold setA lookupA
    rw [if_neg fun hh => h hh.symm]
    rfl
  | cons ab rest ih =>
    rcases ab with ⟨a, b⟩
    unfold setA
    by_cases hak : a = k
    · rw [if_pos hak]
      unfold lookupA
      by_cases hag : a = g
      · exact absurd (hag ▸ hak) h
      · rw [if_neg hag, if_neg hag]
    · rw [if_neg hak]
      unfold lookupA
      by_cases hag : a = g
      · rw [if_pos hag, if_pos hag]
      · rw [if_neg hag, if_neg hag]
        exact ih

theorem read_write_progress (d : Progress) (fs : FS) :
    read_progress (write_progress d fs) = d := rfl

/-- C1: sorting with the file ordering key places every file whose (stripped)
name matches the date pattern before every non-matching file; matching files
are ordered chronologically ascending by the decoded date (two-digit year:
2000+yy when yy < 70, else 1900+yy); non-matching files are ordered by
case-insensitive name; and the three example files sort exactly as stated. -/
theorem sortFiles_spec_order :
    (∀ l : List Item, (sortFiles l).Pairwise specFileOrder)
  ∧ sortFiles [⟨strL "file", strL "Modern_Sabahlar_01_02_23.mp3", []⟩,
      ⟨strL "file", strL "Modern_Sabahlar_15_01_23.mp3", []⟩,
      ⟨strL "file", strL "random.mp3", []⟩]
    = [⟨strL "file", strL "Modern_Sabahlar_15_01_23.mp3", []⟩,
      ⟨strL "file", strL "Modern_Sabahlar_01_02_23.mp3", []⟩,
      ⟨strL "file", strL "random.mp3", []⟩] := by
  constructor
  · intro l
    haveI : IsTotal Item fileLe := ⟨fileLe_total⟩
    haveI : IsTrans Item fileLe := ⟨fileLe_trans⟩
    exact List.Pairwise.imp (fun {a b} h => fileLe_specFileOrder a b h)
      (List.sorted_insertionSort fileLe l)
  · decide

/-- C2 (counterexample): a token issued at tick 0 and re-requested at tick 5
is returned from the session cache unchanged and no fetch happens — the
claimed behaviour (a newly issued token at tick 5) does not hold, because the
refresh threshold in the code is 60*4 ticks, not 4. -/
theorem token_tick5_returns_cached_counterexample :
    (get_download_token (fun _ => "t5") 5 5 ⟨some "t0", some 0⟩ ⟨none⟩).1 = "t0"
  ∧ (get_download_token (fun _ => "t5") 5 5 ⟨some "t0", some 0⟩ ⟨none⟩).2.1
      = ⟨some "t0", some 0⟩
  ∧ (get_download_token (fun _ => "t5") 5 5 ⟨some "t0", some 0⟩ ⟨none⟩).2.2 = ⟨none⟩
  ∧ "t0" ≠ "t5" :=
  ⟨rfl, rfl, rfl, by decide⟩

/-- C2 (amended): the refresh threshold on the held token's tick-age is 240
(the code compares the age against 60*4): a token issued at tick 0 is served
from the session cache both at tick 3 and at tick 5, and a newly fetched
token is returned exactly when the tick-age exceeds 240, e.g. at tick 241. -/
theorem token_refresh_threshold_240 :
    ∀ (issue : Int → String) (rnow now ts : Int) (tok : String) (c : MemoCache),
      ((get_download_token issue rnow now ⟨some tok, some ts⟩ c).1
        = if now - ts > 60 * 4 then (get_download_token_cached issue rnow c).1 else tok)
    ∧ (get_download_token issue rnow 3 ⟨some tok, some 0⟩ c).1 = tok
    ∧ (get_download_token issue rnow 5 ⟨some tok, some 0⟩ c).1 = tok
    ∧ (get_download_token issue rnow 241 ⟨some tok, some 0⟩ ⟨none⟩).1 = issue rnow := by
  intro issue rnow now ts tok c
  refine ⟨?_, ?_, ?_, ?_⟩
  · show (if now - ts > 60 * 4
        then ((get_download_token_cached issue rnow c).1,
          (⟨some (get_download_token_cached issue rnow c).1, some now⟩ : TokState),
          (get_download_token_cached issue rnow c).2)
        else (tok, (⟨some tok, some ts⟩ : TokState), c)).1
      = if now - ts > 60 * 4 then (get_download_token_cached issue rnow c).1 else tok
    by_cases h : now - ts > 60 * 4
    · rw [if_pos h, if_pos h]
    · rw [if_neg h, if_neg h]
  · show (if (3 : Int) - 0 > 60 * 4
        then ((get_download_token_cached issue rnow c).1,
          (⟨some (get_download_token_cached issue rnow c).1, some 3⟩ : TokState),
          (get_download_token_cached issue rnow c).2)
        else (tok, (⟨some tok, some 0⟩ : TokState), c)).1 = tok
    rw [if_neg (by decide)]
  · show (if (5 : Int) - 0 > 60 * 4
        then ((get_download_token_cached issue rnow c).1,
          (⟨some (get_download_token_cached issue rnow c).1, some 5⟩ : TokState),
          (get_download_token_cached issue rnow c).2)
        else (tok, (⟨some tok, some 0⟩ : TokState), c)).1 = tok
    rw [if_neg (by decide)]
  · show (if (241 : Int) - 0 > 60 * 4
        then ((get_download_token_cached issue rnow ⟨none⟩).1,
          (⟨some (get_download_token_cached issue rnow ⟨none⟩).1, some 241⟩ : TokState),
          (get_download_token_cached issue rnow ⟨none⟩).2)
        else (tok, (⟨some tok, some 0⟩ : TokState), ⟨none⟩)).1 = issue rnow
    rw [if_pos (by decide)]
    rfl

/-- C3: starting from the reset state, after any sequence of page loads the
session offset equals the total number of entries fetched so far; a load_more
advances the offset by exactly the number of entries returned (strictly when
at least one is returned); when the remote never returns more entries than
remain below the reported total, the offset never exceeds that total; and
when every entry is typed folder or file, the accumulated folder and file
counts add up to the offset. -/
theorem pagination_offset_invariants :
    (∀ (remote : Nat → List Item) (ops : List NavOp),
      (navRun remote ops).1.offset = (navRun remote ops).2)
  ∧ (∀ (remote : Nat → List Item) (s : SessionS),
      (load_more remote s).offset = s.offset + (remote s.offset).length)
  ∧ (∀ (remote : Nat → List Item) (s : SessionS),
      0 < (remote s.offset).length → s.offset < (load_more remote s).offset)
  ∧ (∀ (remote : Nat → List Item) (total : Nat) (ops : List NavOp),
      (∀ o : Nat, o ≤ total → o + (remote o).length ≤ total) →
      (navRun remote ops).1.offset ≤ total)
  ∧ (∀ (remote : Nat → List Item) (ops : List NavOp),
      (∀ (o : Nat) (it : Item), it ∈ remote o →
        it.type = strL "folder" ∨ it.type = strL "file") →
      (navRun remote ops).1.loaded_folders.length
          + (navRun remote ops).1.loaded_files.length
        = (navRun remote ops).1.offset) := by
  refine ⟨?_, ?_, ?_, ?_, ?_⟩
  · intro remote ops
    exact navRun_aux_offset remote ops resetSession 0 rfl
  · intro remote s
    rfl
  · intro remote s h
    show s.offset < s.offset + (remote s.offset).length
    omega
  · intro remote total ops hr
    exact navRun_aux_le remote total hr ops resetSession 0 (Nat.zero_le total)
  · intro remote ops hr
    exact navRun_aux_lengths remote hr ops resetSession 0 rfl

/-- Concrete instantiation of the pagination invariants. -/
theorem pagination_offset_invariants_witness :
    resetSession.offset
      < (load_more (fun _ => [⟨strL "file", strL "a.mp3", strL "a"⟩]) resetSession).offset
  ∧ (navRun (fun _ => []) [NavOp.first, NavOp.more]).1.offset ≤ 0
  ∧ (navRun (fun _ => []) [NavOp.first]).1.loaded_folders.length
        + (navRun (fun _ => []) [NavOp.first]).1.loaded_files.length
      = (navRun (fun _ => []) [NavOp.first]).1.offset :=
  ⟨pagination_offset_invariants.2.2.1 (fun _ => [⟨strL "file", strL "a.mp3", strL "a"⟩])
      resetSession (by decide),
   pagination_offset_invariants.2.2.2.1 (fun _ => []) 0 [NavOp.first, NavOp.more]
      (fun o ho => by simpa using ho),
   pagination_offset_invariants.2.2.2.2 (fun _ => []) [NavOp.first]
      (fun o it hit => absurd hit (List.not_mem_nil it))⟩

/-- C4 (counterexample): the claim fails as stated.  Three entries with a
non-empty remote path not already ending in "/"+name whose normalized result
does not end in "/"+name: an empty name with path "abc"; an all-slash path
"///" with name "x"; and a name "x/" ending in a slash with path "a". -/
theorem normalize_child_weblink_counterexample :
    (strL "abc" ≠ [] ∧ ¬ ('/' :: ([] : List Char)) <:+ strL "abc"
      ∧ ¬ ('/' :: ([] : List Char)) <:+
          normalize_child_weblink (strL "p") ⟨strL "folder", [], strL "abc"⟩)
  ∧ (strL "///" ≠ [] ∧ ¬ ('/' :: strL "x") <:+ strL "///"
      ∧ ¬ ('/' :: strL "x") <:+
          normalize_child_weblink (strL "p") ⟨strL "folder", strL "x", strL "///"⟩)
  ∧ (strL "a" ≠ [] ∧ ¬ ('/' :: strL "x/") <:+ strL "a"
      ∧ ¬ ('/' :: strL "x/") <:+
          normalize_child_weblink (strL "p") ⟨strL "folder", strL "x/", strL "a"⟩) := by
  decide

/-- C4 (amended): for every parent and entry whose name is non-empty and does
not end in a slash, and whose remote path contains some non-slash character
and does not already end in "/"+name, the normalized result ends exactly in
"/"+name and has neither a leading nor a trailing slash; an entry whose
remote path is empty yields the empty string. -/
theorem normalize_child_weblink_amended :
    (∀ (parent : List Char) (it : Item),
      it.name ≠ [] → it.name.getLast? ≠ some '/' →
      rdrop isSlash it.weblink ≠ [] → ¬ ('/' :: it.name) <:+ it.weblink →
      ('/' :: it.name) <:+ normalize_child_weblink parent it
        ∧ (normalize_child_weblink parent it).head? ≠ some '/'
        ∧ (normalize_child_weblink parent it).getLast? ≠ some '/')
  ∧ (∀ (parent : List Char) (it : Item), it.weblink = [] →
      normalize_child_weblink parent it = []) := by
  constructor
  · intro parent it h1 h2 h3 h4
    rw [normalize_core parent it h1 h2 h3 h4]
    refine ⟨List.suffix_append _ _, ?_, ?_⟩
    · cases hL : ldrop isSlash (rdrop isSlash it.weblink) with
      | nil => exact absurd hL (ldrop_rdrop_ne_nil isSlash it.weblink h3)
      | cons c t =>
        have hL2 : (rdrop isSlash it.weblink).dropWhile isSlash = c :: t := hL
        have hc : isSlash c = false := dropWhile_head_not isSlash _ c t hL2
        have hcn : c ≠ '/' := by simpa [isSlash] using hc
        simp only [List.cons_append, List.head?_cons]
        simpa using hcn
    · rw [List.getLast?_append_of_ne_nil _ (by simp : ('/' :: it.name) ≠ [])]
      rw [show ('/' :: it.name) = ['/'] ++ it.name from rfl,
        List.getLast?_append_of_ne_nil _ h1]
      exact h2
  · intro parent it hw
    unfold normalize_child_weblink
    rw [if_pos hw]

/-- Concrete instantiation of the amended child-path normalization property. -/
theorem normalize_child_weblink_amended_witness :
    ('/' :: strL "x") <:+
        normalize_child_weblink (strL "p") ⟨strL "folder", strL "x", strL "a"⟩
      ∧ (normalize_child_weblink (strL "p") ⟨strL "folder", strL "x", strL "a"⟩).head?
          ≠ some '/'
      ∧ (normalize_child_weblink (strL "p") ⟨strL "folder", strL "x", strL "a"⟩).getLast?
          ≠ some '/' :=
  normalize_child_weblink_amended.1 (strL "p") ⟨strL "folder", strL "x", strL "a"⟩
    (by decide) (by decide) (by decide) (by decide)

/-- C5 (counterexample): the derived child path is computed from the entry's
own remote path, not from the parent: an entry with path "q" and name "x"
under parent "p" normalizes to "q/x", not to the normalized join "p/x"; and
with a trailing slash on the parent the results disagree even when the
entry's path equals the parent. -/
theorem child_path_parent_join_counterexample :
    normalize_child_weblink (strL "p") ⟨strL "folder", strL "x", strL "q"⟩
      ≠ spec_child_path (strL "p") (strL "x")
  ∧ normalize_child_weblink (strL "p/") ⟨strL "folder", strL "x", strL "p/"⟩
      ≠ spec_child_path (strL "p/") (strL "x") := by
  decide

/-- C5 (amended): when the entry's remote path equals the parent path and the
parent is non-empty with no trailing slash, the derived child path equals the
parent joined with "/" and the entry's name, normalized as the specification
describes (no duplicated trailing name, no leading or trailing slashes); and
in general the parent argument is ignored: the result depends only on the
entry. -/
theorem child_path_parent_join_amended :
    (∀ (parent : List Char) (it : Item),
      it.weblink = parent → parent ≠ [] → parent.getLast? ≠ some '/' →
      normalize_child_weblink parent it = spec_child_path parent it.name)
  ∧ (∀ (p1 p2 : List Char) (it : Item),
      normalize_child_weblink p1 it = normalize_child_weblink p2 it) := by
  constructor
  · intro parent it hw hne hlast
    have hrd : rdrop isSlash parent = parent := by
      apply rdrop_eq_self
      intro c hc
      have hcne : c ≠ '/' := fun he => hlast (he ▸ hc)
      simpa [isSlash] using hcne
    unfold normalize_child_weblink spec_child_path
    rw [hw, if_neg hne]
    by_cases h1 : it.name = []
    · rw [h1]
      rw [if_neg (by simp)]
      have hsf : ¬ (endswith parent ('/' :: ([] : List Char)) = true) := by
        rw [endswith, List.isSuffixOf_iff_suffix]
        intro hs
        rcases hs with ⟨t, ht⟩
        rw [← ht, List.getLast?_append_of_ne_nil t (by simp)] at hlast
        exact hlast rfl
      rw [if_neg hsf]
      show stripBoth isSlash parent = stripBoth isSlash (parent ++ ['/'])
      rw [stripBoth_append_sing isSlash parent '/' (by decide)]
    · by_cases h2 : endswith parent ('/' :: it.name) = true
      · rw [if_neg (fun hc => hc.2 h2), if_pos h2]
      · rw [if_pos ⟨h1, h2⟩, if_neg h2, hrd]
  · intro p1 p2 it
    rfl

/-- Concrete instantiation of the amended child-path join property. -/
theorem child_path_parent_join_amended_witness :
    normalize_child_weblink (strL "p") ⟨strL "folder", strL "x", strL "p"⟩
      = spec_child_path (strL "p") (strL "x") :=
  child_path_parent_join_amended.1 (strL "p") ⟨strL "folder", strL "x", strL "p"⟩
    rfl (by decide) (by decide)

theorem pick_last_fallback_some (p : Progress) (folder : List Char)
    (names : List (List Char)) (w : List Char)
    (hf : p.last_folder = some folder) (hw : p.last_file = some w) (hmem : w ∈ names) :
    pick_last_fallback p folder names = some w := by
  unfold pick_last_fallback
  rw [hf, hw]
  show (if folder = folder ∧ w ∈ names then some w else none) = some w
  rw [if_pos ⟨rfl, hmem⟩]

theorem pick_last_fallback_none (p : Progress) (folder : List Char)
    (names : List (List Char))
    (h : p.last_folder ≠ some folder ∨ ∀ w, p.last_file = some w → w ∉ names) :
    pick_last_fallback p folder names = none := by
  unfold pick_last_fallback
  cases hf : p.last_folder with
  | none => rfl
  | some f2 =>
    cases hw : p.last_file with
    | none => rfl
    | some w =>
      show (if f2 = folder ∧ w ∈ names then some w else none) = none
      rcases h with h | h
      · rw [if_neg fun hc => h (by rw [hf, hc.1])]
      · rw [if_neg fun hc => (h w hw) hc.2]

/-- C6: pick_last_for_folder returns the per-folder remembered file name when
it is among the available names; otherwise, when the record-level folder
matches and its file is available, that file; otherwise nothing — and the two
concrete examples of the claim evaluate as stated. -/
theorem pick_last_for_folder_spec :
    (∀ (p : Progress) (folder : List Char) (names : List (List Char)) (v : List Char),
      lookupA p.per_folder folder = some v → v ∈ names →
      pick_last_for_folder p folder names = some v)
  ∧ (∀ (p : Progress) (folder : List Char) (names : List (List Char)) (w : List Char),
      (∀ v, lookupA p.per_folder folder = some v → v ∉ names) →
      p.last_folder = some folder → p.last_file = some w → w ∈ names →
      pick_last_for_folder p folder names = some w)
  ∧ (∀ (p : Progress) (folder : List Char) (names : List (List Char)),
      (∀ v, lookupA p.per_folder folder = some v → v ∉ names) →
      (p.last_folder ≠ some folder ∨ ∀ w, p.last_file = some w → w ∉ names) →
      pick_last_for_folder p folder names = none)
  ∧ pick_last_for_folder ⟨none, none, [(strL "X", strL "a.mp3")]⟩ (strL "X")
      [strL "a.mp3", strL "b.mp3"] = some (strL "a.mp3")
  ∧ pick_last_for_folder ⟨none, none, [(strL "X", strL "a.mp3")]⟩ (strL "X")
      [strL "b.mp3"] = none := by
  refine ⟨?_, ?_, ?_, by decide, by decide⟩
  · intro p folder names v hl hv
    unfold pick_last_for_folder
    rw [hl]
    show (if v ∈ names then some v else pick_last_fallback p folder names) = some v
    rw [if_pos hv]
  · intro p folder names w hl hf hw hmem
    unfold pick_last_for_folder
    cases hc : lookupA p.per_folder folder with
    | none => exact pick_last_fallback_some p folder names w hf hw hmem
    | some v =>
      show (if v ∈ names then some v else pick_last_fallback p folder names) = some w
      rw [if_neg (hl v hc)]
      exact pick_last_fallback_some p folder names w hf hw hmem
  · intro p folder names hl h
    unfold pick_last_for_folder
    cases hc : lookupA p.per_folder folder with
    | none => exact pick_last_fallback_none p folder names h
    | some v =>
      show (if v ∈ names then some v else pick_last_fallback p folder names) = none
      rw [if_neg (hl v hc)]
      exact pick_last_fallback_none p folder names h

/-- Concrete instantiation of the pick_last_for_folder properties. -/
theorem pick_last_for_folder_spec_witness :
    pick_last_for_folder ⟨none, none, [(strL "X", strL "a.mp3")]⟩ (strL "X")
      [strL "a.mp3", strL "b.mp3"] = some (strL "a.mp3") :=
  pick_last_for_folder_spec.1 ⟨none, none, [(strL "X", strL "a.mp3")]⟩ (strL "X")
    [strL "a.mp3", strL "b.mp3"] (strL "a.mp3") (by decide) (by decide)

/-- C7: writing a record and then reading the unchanged store yields an equal
record; and a crash after the temporary file is written but before the atomic
rename leaves a subsequent read seeing the previously committed contents
unchanged. -/
theorem progress_roundtrip_and_crash_safety :
    (∀ (d : Progress) (fs : FS), read_progress (write_progress d fs) = d)
  ∧ (∀ (d : Progress) (fs : FS),
      read_progress (write_progress_crashed d fs) = read_progress fs) :=
  ⟨fun d fs => read_write_progress d fs, fun _ _ => rfl⟩

/-- C8: read_progress never propagates a failure to the caller: whenever the
underlying open/parse attempt fails (missing file or malformed contents) it
returns the empty record, and in every state it returns either the
successfully parsed record or the empty record. -/
theorem read_progress_absorbs_failures :
    ∀ fs : FS,
      (∀ e, load_attempt fs = Except.error e → read_progress fs = emptyProgress)
    ∧ (fs.main = none → read_progress fs = emptyProgress)
    ∧ (fs.main = some FileData.corrupt → read_progress fs = emptyProgress)
    ∧ (load_attempt fs = Except.ok (read_progress fs)
        ∨ read_progress fs = emptyProgress) := by
  intro fs
  rcases fs with ⟨main, tmp⟩
  cases main with
  | none => exact ⟨fun _ _ => rfl, fun _ => rfl, fun _ => rfl, Or.inr rfl⟩
  | some fd =>
    cases fd with
    | valid p =>
      refine ⟨fun e he => ?_, fun h => ?_, fun h => ?_, Or.inl rfl⟩
      · exact Except.noConfusion he
      · exact Option.noConfusion h
      · exact FileData.noConfusion (Option.some.inj h)
    | corrupt => exact ⟨fun _ _ => rfl, fun _ => rfl, fun _ => rfl, Or.inr rfl⟩

/-- Concrete instantiation of the read-failure absorption property. -/
theorem read_progress_absorbs_failures_witness :
    read_progress ⟨none, none⟩ = emptyProgress
  ∧ read_progress ⟨some FileData.corrupt, none⟩ = emptyProgress :=
  ⟨(read_progress_absorbs_failures ⟨none, none⟩).2.1 rfl,
   (read_progress_absorbs_failures ⟨some FileData.corrupt, none⟩).2.2.1 rfl⟩

/-- C9 (counterexample): after the refresh action the held token becomes
absent, but the next request is answered by the memoized underlying fetch:
inside its ttl window the previously issued value "A" is returned rather
than a newly issued one ("B"), so the returned token is a previously cached
value. -/
theorem refresh_token_memoized_counterexample :
    refresh_token_action ⟨some "A", some 0⟩ = ⟨none, none⟩
  ∧ (get_download_token (fun _ => "B") 100 7
      (refresh_token_action ⟨some "A", some 0⟩) ⟨some ("A", 0)⟩).1 = "A"
  ∧ "A" ≠ "B" :=
  ⟨rfl, rfl, by decide⟩

/-- C9 (amended): the refresh action always empties the held token, and the
next request goes to the underlying memoized fetch, whose value is stored as
the new held token and returned; when that memo is empty, or its entry is at
least 60*5 old, the returned token is genuinely newly issued. -/
theorem refresh_token_amended :
    (∀ st : TokState, refresh_token_action st = ⟨none, none⟩)
  ∧ (∀ (st : TokState) (issue : Int → String) (rnow now : Int) (c : MemoCache),
      (get_download_token issue rnow now (refresh_token_action st) c).1
          = (get_download_token_cached issue rnow c).1
        ∧ (get_download_token issue rnow now (refresh_token_action st) c).2.1.token
          = some (get_download_token_cached issue rnow c).1)
  ∧ (∀ (issue : Int → String) (rnow now : Int),
      (get_download_token issue rnow now ⟨none, none⟩ ⟨none⟩).1 = issue rnow)
  ∧ (∀ (issue : Int → String) (rnow now : Int) (v : String) (t : Int),
      rnow - t ≥ 60 * 5 →
      (get_download_token issue rnow now ⟨none, none⟩ ⟨some (v, t)⟩).1 = issue rnow) := by
  refine ⟨fun _ => rfl, fun st issue rnow now c => ⟨rfl, rfl⟩, fun issue rnow now => rfl, ?_⟩
  intro issue rnow now v t h
  show (if rnow - t < 60 * 5 then (v, (⟨some (v, t)⟩ : MemoCache))
      else (issue rnow, ⟨some (issue rnow, rnow)⟩)).1 = issue rnow
  rw [if_neg (by omega)]

/-- Concrete instantiation of the amended refresh-token property. -/
theorem refresh_token_amended_witness :
    ((300 : Int) - 0 ≥ 60 * 5)
  ∧ (get_download_token (fun _ => "B") 300 1 ⟨none, none⟩ ⟨some ("A", 0)⟩).1 = "B" :=
  ⟨by decide, refresh_token_amended.2.2.2 (fun _ => "B") 300 1 "A" 0 (by decide)⟩

/-- C10: update_progress is a read-modify-write that changes only last_folder,
last_file and the per-folder entry of the updated folder: every other
folder's remembered file is written back exactly as it was read, and the
updated folder maps to the new file name. -/
theorem update_progress_frame :
    ∀ (fs : FS) (f n g : List Char), g ≠ f →
      lookupA (read_progress (update_progress f n fs)).per_folder g
          = lookupA (read_progress fs).per_folder g
        ∧ (read_progress (update_progress f n fs)).last_folder = some f
        ∧ (read_progress (update_progress f n fs)).last_file = some n
        ∧ lookupA (read_progress (update_progress f n fs)).per_folder f = some n := by
  intro fs f n g hg
  have hread : read_progress (update_progress f n fs)
      = update_progress_record f n (read_progress fs) :=
    read_write_progress _ fs
  rw [hread]
  exact ⟨lookupA_setA_ne (read_progress fs).per_folder f n g hg, rfl, rfl,
    lookupA_setA_self (read_progress fs).per_folder f n⟩

/-- Concrete instantiation of the update_progress frame property. -/
theorem update_progress_frame_witness :
    lookupA (read_progress (update_progress (strL "X") (strL "a.mp3")
        ⟨some (FileData.valid ⟨none, none, [(strL "Y", strL "c.mp3")]⟩), none⟩)).per_folder
        (strL "Y")
      = lookupA (read_progress
          ⟨some (FileData.valid ⟨none, none, [(strL "Y", strL "c.mp3")]⟩), none⟩).per_folder
        (strL "Y") :=
  (update_progress_frame
    ⟨some (FileData.valid ⟨none, none, [(strL "Y", strL "c.mp3")]⟩), none⟩
    (strL "X") (strL "a.mp3") (strL "Y") (by decide)).1
